import Mathlib

/-!
Verification development for the `ai_accessibility_checker` script.

The script's response-parsing path (`scan_with_ai`, after the model call) is:
  1. `raw_output = response.choices[0].message.content.strip()`
  2. `raw_output = re.sub(r"^```(json)?|```$", "", raw_output, flags=re.MULTILINE).strip()`
  3. `match = re.search(r"\[.*\]", raw_output, re.DOTALL)`
  4. `json.loads(match.group(0))` if a match exists, else `[]`;
     a `json.JSONDecodeError` is caught, a warning is printed and `[]` returned.

We embed this pipeline over `List Char`, together with the file-discovery
function `find_supported_files` (an `os.walk` with directory pruning) and the
report-rendering fragment of `main`.
-/

namespace AIChecker

/-- A decoded JSON value, as produced by Python's `json.loads`.
Numbers are modelled as integers only: fractional and exponent parts of
JSON numbers (and the non-standard `NaN`/`Infinity` literals Python also
accepts) are outside the fragment exercised here, and `jsonLoads` rejects
them rather than approximating float semantics. -/
inductive Json where
  | null
  | bool (b : Bool)
  | num (n : Int)
  | str (s : String)
  | arr (elements : List Json)
  | obj (members : List (String × Json))

/-- The list held by a decoded JSON array; any other value yields `[]`.
(The substring handed to `json.loads` always starts with `[`, so a
successful decode is always an array; see `jsonLoads_bracket_isArr`.) -/
def Json.getArr : Json → List Json
  | .arr xs => xs
  | _ => []

/-- The characters `json.loads` skips as whitespace: space, tab, newline,
carriage return. -/
def isJsonWs (c : Char) : Bool :=
  c = ' ' || c = '\t' || c = '\n' || c = '\r'

/-- Drop leading JSON whitespace. -/
def skipWs (s : List Char) : List Char :=
  s.dropWhile isJsonWs

/-- The opening-brace character, written via its code point. -/
def lbrace : Char := Char.ofNat 123

/-- The closing-brace character, written via its code point. -/
def rbrace : Char := Char.ofNat 125

/-- Translation of a single JSON string escape (`\"`, `\\`, `\/`, `\b`,
`\f`, `\n`, `\r`, `\t`). `\uXXXX` escapes are not modelled and fail. -/
def escChar : Char → Option Char
  | '"' => some '"'
  | '\\' => some '\\'
  | '/' => some '/'
  | 'b' => some (Char.ofNat 8)
  | 'f' => some (Char.ofNat 12)
  | 'n' => some '\n'
  | 'r' => some '\r'
  | 't' => some '\t'
  | _ => none

/-- Body of a JSON string literal after the opening quote: characters up to
the closing quote, with escapes resolved; raw control characters are
rejected, as in Python's strict mode. Fuel-indexed for structural
recursion. -/
def parseStringBody : Nat → List Char → Option (List Char × List Char)
  | 0, _ => none
  | _ + 1, [] => none
  | fuel + 1, c :: rest =>
    if c = '"' then some ([], rest)
    else if c = '\\' then
      match rest with
      | [] => none
      | e :: rest2 =>
        match escChar e with
        | some d => (parseStringBody fuel rest2).map (fun p => (d :: p.1, p.2))
        | none => none
    else if c.toNat < 32 then none
    else (parseStringBody fuel rest).map (fun p => (c :: p.1, p.2))

/-- One or more decimal digits, maximal munch. -/
def parseDigits : List Char → Option (List Char × List Char)
  | [] => none
  | c :: rest =>
    if c.isDigit then
      match parseDigits rest with
      | some (ds, r) => some (c :: ds, r)
      | none => some ([c], rest)
    else none

/-- Numeric value of a digit string. -/
def digitsToNat : List Char → Nat
  | [] => 0
  | c :: rest => (c.toNat - 48) * 10 ^ rest.length + digitsToNat rest

/-- A nonnegative JSON integer literal: `0` or a nonzero digit followed by
digits (the leading-zero rule of the JSON grammar Python's scanner uses).
A following `.`, `e` or `E` would begin a float, which is not modelled:
the parse fails there. -/
def parseNumberNonneg (s : List Char) : Option (Json × List Char) :=
  match parseDigits s with
  | none => none
  | some (ds, r) =>
    match ds with
    | '0' :: _ :: _ => none
    | _ =>
      match r with
      | '.' :: _ => none
      | 'e' :: _ => none
      | 'E' :: _ => none
      | _ => some (Json.num (Int.ofNat (digitsToNat ds)), r)

/-- A JSON integer literal: an optional minus sign, then digits. -/
def parseNumber (s : List Char) : Option (Json × List Char) :=
  match s with
  | '-' :: rest =>
    match parseNumberNonneg rest with
    | some (Json.num n, r) => some (Json.num (-n), r)
    | _ => none
  | _ => parseNumberNonneg s

mutual

/-- One JSON value at the head of the input (whitespace already skipped),
returning the value and the unconsumed rest. Mirrors Python's recursive
scanner; fuel-indexed so every call is structural. -/
def parseValue : Nat → List Char → Option (Json × List Char)
  | 0, _ => none
  | _ + 1, [] => none
  | fuel + 1, c :: rest =>
    if c = 'n' then
      match rest with
      | 'u' :: 'l' :: 'l' :: r => some (Json.null, r)
      | _ => none
    else if c = 't' then
      match rest with
      | 'r' :: 'u' :: 'e' :: r => some (Json.bool true, r)
      | _ => none
    else if c = 'f' then
      match rest with
      | 'a' :: 'l' :: 's' :: 'e' :: r => some (Json.bool false, r)
      | _ => none
    else if c = '"' then
      (parseStringBody (rest.length + 1) rest).map (fun p => (Json.str (String.mk p.1), p.2))
    else if c = '[' then
      (parseElems fuel (skipWs rest)).map (fun p => (Json.arr p.1, p.2))
    else if c = lbrace then
      (parseMembers fuel (skipWs rest)).map (fun p => (Json.obj p.1, p.2))
    else
      parseNumber (c :: rest)

/-- Elements of a JSON array after the opening bracket (whitespace skipped):
either an immediate `]`, or a first value followed by `,`-separated values. -/
def parseElems : Nat → List Char → Option (List Json × List Char)
  | 0, _ => none
  | fuel + 1, s =>
    match s with
    | ']' :: rest => some ([], rest)
    | _ =>
      match parseValue fuel s with
      | none => none
      | some (v, r) =>
        match parseElemsRest fuel (skipWs r) with
        | none => none
        | some (vs, r2) => some (v :: vs, r2)

/-- Continuation of an array body: `]` closes it, `,` demands another value. -/
def parseElemsRest : Nat → List Char → Option (List Json × List Char)
  | 0, _ => none
  | fuel + 1, s =>
    match s with
    | ']' :: rest => some ([], rest)
    | ',' :: rest =>
      match parseValue fuel (skipWs rest) with
      | none => none
      | some (v, r) =>
        match parseElemsRest fuel (skipWs r) with
        | none => none
        | some (vs, r2) => some (v :: vs, r2)
    | _ => none

/-- Members of a JSON object after the opening brace (whitespace skipped). -/
def parseMembers : Nat → List Char → Option (List (String × Json) × List Char)
  | 0, _ => none
  | fuel + 1, s =>
    if s.head? = some rbrace then some ([], s.tail)
    else
      match parseMember fuel s with
      | none => none
      | some (kv, r) =>
        match parseMembersRest fuel (skipWs r) with
        | none => none
        | some (kvs, r2) => some (kv :: kvs, r2)

/-- One `"key": value` pair. -/
def parseMember : Nat → List Char → Option ((String × Json) × List Char)
  | 0, _ => none
  | fuel + 1, s =>
    match s with
    | '"' :: rest =>
      match parseStringBody (rest.length + 1) rest with
      | none => none
      | some (k, r) =>
        match skipWs r with
        | ':' :: r2 =>
          match parseValue fuel (skipWs r2) with
          | none => none
          | some (v, r3) => some ((String.mk k, v), r3)
        | _ => none
    | _ => none

/-- Continuation of an object body: `}` closes it, `,` demands another member. -/
def parseMembersRest : Nat → List Char → Option (List (String × Json) × List Char)
  | 0, _ => none
  | fuel + 1, s =>
    if s.head? = some rbrace then some ([], s.tail)
    else
      match s with
      | ',' :: rest =>
        match parseMember fuel (skipWs rest) with
        | none => none
        | some (kv, r) =>
          match parseMembersRest fuel (skipWs r) with
          | none => none
          | some (kvs, r2) => some (kv :: kvs, r2)
      | _ => none

end

/-- Python's `json.loads`: skip leading whitespace, parse one value, and
require that only whitespace follows (otherwise "Extra data" is raised,
modelled as `none`). The fuel `2 * length + 4` dominates the recursion
depth, every level of which consumes input. -/
def jsonLoads (s : List Char) : Option Json :=
  match parseValue (2 * s.length + 4) (skipWs s) with
  | some (j, rest) => if skipWs rest = [] then some j else none
  | none => none

/-- The characters Python's `str.strip()` removes: space, tab, newline,
carriage return, form feed, vertical tab. -/
def isPyWs (c : Char) : Bool :=
  c = ' ' || c = '\t' || c = '\n' || c = '\r' || c = Char.ofNat 12 || c = Char.ofNat 11

/-- Python's `str.strip()`: drop whitespace from both ends. -/
def pyStrip (s : List Char) : List Char :=
  ((s.dropWhile isPyWs).reverse.dropWhile isPyWs).reverse

/-- One left-to-right pass of
`re.sub(r"^```(json)?|```$", "", raw, flags=re.MULTILINE)`.
`atStart` records whether the current position is a line start (position 0
or just after a newline) in the original string. At a line start,
```` ```json ```` (or bare ```` ``` ````) is deleted; elsewhere ```` ``` ````
is deleted only when followed by a newline or the end of the string; any
other character is kept and scanning advances one position. Fuel-indexed
(each step consumes at least one character) so recursion is structural. -/
def fenceSubF : Nat → Bool → List Char → List Char
  | 0, _, s => s
  | fuel + 1, atStart, '`' :: '`' :: '`' :: 'j' :: 's' :: 'o' :: 'n' :: rest2 =>
    if atStart then fenceSubF fuel false rest2
    else '`' :: fenceSubF fuel false ('`' :: '`' :: 'j' :: 's' :: 'o' :: 'n' :: rest2)
  | fuel + 1, atStart, ['`', '`', '`'] =>
    if atStart then fenceSubF fuel false [] else []
  | fuel + 1, _, '`' :: '`' :: '`' :: '\n' :: tail =>
    fenceSubF fuel false ('\n' :: tail)
  | fuel + 1, atStart, '`' :: '`' :: '`' :: rest =>
    if atStart then fenceSubF fuel false rest
    else '`' :: fenceSubF fuel false ('`' :: '`' :: rest)
  | fuel + 1, _, c :: rest => c :: fenceSubF fuel (c = '\n') rest
  | _ + 1, _, [] => []

/-- The fence-stripping substitution applied to a whole string. -/
def fenceSub (s : List Char) : List Char :=
  fenceSubF (s.length + 1) true s

/-- The cleaning prefix of the parse path: `content.strip()`, then the
fence substitution, then `.strip()` again. -/
def cleanOutput (s : List Char) : List Char :=
  pyStrip (fenceSub (pyStrip s))

/-- The prefix of `s` up to and including its last `]`, or `none` when `s`
has no `]`. -/
def takeToLastClose : List Char → Option (List Char)
  | [] => none
  | c :: rest =>
    match takeToLastClose rest with
    | some pre => some (c :: pre)
    | none => if c = ']' then some [']'] else none

/-- `re.search(r"\[.*\]", s, re.DOTALL)`: the match, when one exists,
starts at the first `[` that has some `]` after it and — `.*` being greedy —
extends to the last `]` of the string. -/
def extractArray : List Char → Option (List Char)
  | [] => none
  | c :: rest =>
    if c = '[' then
      match takeToLastClose rest with
      | some pre => some ('[' :: pre)
      | none => none
    else extractArray rest

/-- The one exception the parse path itself can raise: `json.JSONDecodeError`
out of `json.loads`. -/
inductive ParseErr where
  | jsonDecodeError
deriving DecidableEq

/-- The body of the parse path (lines 141–148 of the script) in an explicit
error monad: clean the raw output, search for the bracketed span; on a match,
decode it (a decode failure is the raised `JSONDecodeError`); with no match,
return `[]`. -/
def scanBody (s : List Char) : Except ParseErr (List Json) :=
  match extractArray (cleanOutput s) with
  | some sub =>
    match jsonLoads sub with
    | some j => .ok j.getArr
    | none => .error .jsonDecodeError
  | none => .ok []

/-- The parse path with its handlers (lines 141–155): a raised
`JSONDecodeError` is caught, a warning is printed (the `Bool` component)
and `[]` is returned. The result is the pair (findings, warning-printed). -/
def scanParse (s : List Char) : List Json × Bool :=
  match scanBody s with
  | .ok xs => (xs, false)
  | .error .jsonDecodeError => ([], true)

/-! ## File discovery (`find_supported_files`) -/

/-- The configuration keys `find_supported_files` consults. -/
structure Config where
  SUPPORTED_EXTENSIONS : List String
  EXCLUDED_DIRS : List String
  EXCLUDED_PATTERNS : List String

/-- `pat.isPrefixOf`-based substring test on character lists, mirroring
Python's `pat in file`. -/
def listContains (p : List Char) : List Char → Bool
  | [] => p.isPrefixOf []
  | c :: rest => p.isPrefixOf (c :: rest) || listContains p rest

/-- Python's `pat in file` on strings. -/
def strContains (p s : String) : Bool :=
  listContains p.data s.data

/-- Python's `file.endswith(ext)`, via the character lists (Lean's
`String.endsWith` is byte-position based and does not reduce in the
kernel). -/
def strEndsWith (s suffix : String) : Bool :=
  suffix.data.isSuffixOf s.data

/-- Python's `d.startswith(p)`, via the character lists. -/
def strStartsWith (s p : String) : Bool :=
  p.data.isPrefixOf s.data

/-- The file filter of `find_supported_files`:
`any(file.endswith(ext) for ext in SUPPORTED_EXTENSIONS) and
 not any(pat in file for pat in EXCLUDED_PATTERNS)`. -/
def keepFile (cfg : Config) (file : String) : Bool :=
  cfg.SUPPORTED_EXTENSIONS.any (fun ext => strEndsWith file ext)
    && !(cfg.EXCLUDED_PATTERNS.any (fun pat => strContains pat file))

/-- The directory-pruning filter applied to `dirs` during the walk:
`not d.startswith('.') and d not in EXCLUDED_DIRS`. -/
def keepDir (cfg : Config) (d : String) : Bool :=
  !(strStartsWith d ".") && !(cfg.EXCLUDED_DIRS.contains d)

mutual

/-- A directory-tree node: a file, or a directory with its entries. -/
inductive FSEntry where
  | file (name : String)
  | dir (name : String) (children : FSList)

/-- A list of directory entries (mutually inductive with `FSEntry` so that
the walk below is structurally recursive). -/
inductive FSList where
  | nil
  | cons (head : FSEntry) (tail : FSList)

end

/-- Build an `FSList` from a plain list of entries. -/
def FSList.ofList : List FSEntry → FSList
  | [] => .nil
  | e :: rest => .cons e (FSList.ofList rest)

/-- The files of one directory level that pass the file filter, each as the
one-component path `[name]`. (`os.walk` lists a directory's files before
descending into its subdirectories.) -/
def filesHere (cfg : Config) : FSList → List (List String)
  | .nil => []
  | .cons (.file n) rest => (if keepFile cfg n then [[n]] else []) ++ filesHere cfg rest
  | .cons (.dir _ _) rest => filesHere cfg rest

/-- The recursive walk below one directory level: subdirectories pruned by
`keepDir` are not descended into; a kept subdirectory `n` contributes its own
files and (recursively) its sub-walk, each path prefixed with `n`. -/
def walkSubdirs (cfg : Config) : FSList → List (List String)
  | .nil => []
  | .cons (.file _) rest => walkSubdirs cfg rest
  | .cons (.dir n cs) rest =>
    (if keepDir cfg n then
      (filesHere cfg cs ++ walkSubdirs cfg cs).map (fun p => n :: p)
    else []) ++ walkSubdirs cfg rest

/-- `find_supported_files`: `os.walk` from the scan root with pruning, paths
returned as their component lists relative to the root. The root itself is
walked unconditionally (`os.walk` never filters its argument); walking a
non-directory yields nothing. -/
def find_supported_files (cfg : Config) : FSEntry → List (List String)
  | .file _ => []
  | .dir _ cs => filesHere cfg cs ++ walkSubdirs cfg cs

/-! ## Report rendering (`main`, lines 188–215) -/

/-- A decoded finding as `main` consumes it: the member list of a JSON
object, i.e. a Python dict. -/
abbrev Dict := List (String × Json)

/-- Python dict lookup on the members of a decoded JSON object. A duplicate
key later in the list overrides an earlier one, as when Python builds the
dict. -/
def dictGet : Dict → String → Option Json
  | [], _ => none
  | (k, v) :: rest, key =>
    match dictGet rest key with
    | some v2 => some v2
    | none => if k = key then some v else none

mutual

/-- Python's `str()` of a decoded JSON value. Scalars are exact
(`str`/`int`/`None`/`True`/`False`); for the container cases Python uses
`repr` on the elements, whose quoting is not modelled (no claim exercises
container-valued fields). -/
def pyStr : Json → String
  | .null => "None"
  | .bool true => "True"
  | .bool false => "False"
  | .num n => toString n
  | .str s => s
  | .arr xs => "[" ++ String.intercalate ", " (pyStrList xs) ++ "]"
  | .obj ms => String.mk [lbrace] ++
      String.intercalate ", " (pyStrMembers ms) ++ String.mk [rbrace]

/-- `str()` of each element of a list value. -/
def pyStrList : List Json → List String
  | [] => []
  | j :: rest => pyStr j :: pyStrList rest

/-- `key: str(value)` text of each member of an object value. -/
def pyStrMembers : List (String × Json) → List String
  | [] => []
  | (k, v) :: rest => (k ++ ": " ++ pyStr v) :: pyStrMembers rest

end

/-- The rendered text of one scalar field: `str(issue.get(key, ""))` —
the value's `str()` when the key is present, empty text otherwise. -/
def cellStr (d : Dict) (key : String) : String :=
  match dictGet d key with
  | some v => pyStr v
  | none => ""

/-- The `Line(s)` cell: `", ".join(map(str, issue.get("line_numbers", [])))`.
An absent key defaults to `[]`, joining to empty text; a present list joins
the `str()` of its elements; a present non-list makes the join raise
(modelled as `none`; Python would let the per-file handler catch it). -/
def linesCell (d : Dict) : Option String :=
  match dictGet d "line_numbers" with
  | none => some ""
  | some (Json.arr xs) => some (String.intercalate ", " (xs.map pyStr))
  | some _ => none

/-- One row of `table_data` (table mode):
`[i+1, title, issue_type, severity, lines, description, suggestion]`,
each cell as the text `tabulate` will show. -/
def tableRow (i : Nat) (d : Dict) : Option (List String) :=
  match linesCell d with
  | none => none
  | some ln => some [toString (i + 1), cellStr d "title", cellStr d "issue_type",
      cellStr d "severity", ln, cellStr d "description", cellStr d "suggestion"]

/-- The lines printed for one finding in list mode (`enumerate` starting
at 1). -/
def listEntry (idx : Nat) (d : Dict) : Option (List String) :=
  match linesCell d with
  | none => none
  | some ln => some [
      "\n" ++ toString idx ++ ". " ++ cellStr d "title" ++ " [" ++
        cellStr d "issue_type" ++ "] (Severity: " ++ cellStr d "severity" ++ ")",
      "   Lines: " ++ ln,
      "   Description: " ++ cellStr d "description",
      "   Suggestion: " ++ cellStr d "suggestion",
      String.mk (List.replicate 80 '-')]

/-- All table rows, numbering from 0 (the row shows `i+1`). -/
def tableRows : Nat → List Dict → Option (List (List String))
  | _, [] => some []
  | i, d :: rest =>
    match tableRow i d, tableRows (i + 1) rest with
    | some r, some rs => some (r :: rs)
    | _, _ => none

/-- All list-mode entries, numbering from 1. -/
def listEntries : Nat → List Dict → Option (List (List String))
  | _, [] => some []
  | i, d :: rest =>
    match listEntry i d, listEntries (i + 1) rest with
    | some r, some rs => some (r :: rs)
    | _, _ => none

/-- The message printed for a file with no findings (the argument of the
`print` on line 189). -/
def noIssuesMsg : String := "✅ No accessibility issues found.\n"

/-- The per-file rendering step of `main` (lines 188–215): an empty findings
list prints the no-issues message and `continue`s to the next file; otherwise
table or list mode renders every finding (the grid layout `tabulate` applies
to the rows is not modelled); any other format prints nothing. `none` models
an exception escaping to the per-file handler. -/
def renderFileReport (fmt : String) (issues : List Dict) : Option (List (List String)) :=
  if issues.isEmpty then some [[noIssuesMsg]]
  else if fmt = "table" then tableRows 0 issues
  else if fmt = "list" then listEntries 1 issues
  else some []

/-! ## Lemmas about the bracketed-span search -/

/-- A text has a bracketed-array substring: some infix of the form
`[` … `]`. -/
def HasArraySpan (s : List Char) : Prop :=
  ∃ mid, List.IsInfix ('[' :: mid ++ [']']) s

theorem takeToLastClose_eq_none_iff (s : List Char) :
    takeToLastClose s = none ↔ ']' ∉ s := by
  induction s with
  | nil => simp [takeToLastClose]
  | cons c rest ih =>
    simp only [takeToLastClose, List.mem_cons]
    cases hr : takeToLastClose rest with
    | some pre =>
      rw [hr] at ih
      simp only [hr]
      simp only [reduceCtorEq, false_iff] at ih ⊢
      intro hcontra
      exact hcontra (Or.inr (by_contra fun hm => by simp [hm] at ih))
    | none =>
      rw [hr] at ih
      simp only [hr]
      by_cases hc : c = ']'
      · subst hc
        simp
      · simp only [if_neg hc, true_iff, not_or]
        exact ⟨fun h => hc h.symm, ih.mp rfl⟩

theorem takeToLastClose_spec (s : List Char) :
    ∀ t, takeToLastClose s = some t →
      ∃ q mid, s = t ++ q ∧ ']' ∉ q ∧ t = mid ++ [']'] := by
  induction s with
  | nil => intro t h; simp [takeToLastClose] at h
  | cons c rest ih =>
    intro t h
    simp only [takeToLastClose] at h
    cases hr : takeToLastClose rest with
    | some pre =>
      rw [hr] at h
      obtain ⟨q, mid, hq, hnq, hmid⟩ := ih pre hr
      injection h with h
      subst h
      exact ⟨q, c :: mid, by simp [hq], hnq, by simp [hmid]⟩
    | none =>
      rw [hr] at h
      by_cases hc : c = ']'
      · rw [if_pos hc] at h
        injection h with h
        subst h
        exact ⟨rest, [], by simp [hc], (takeToLastClose_eq_none_iff rest).mp hr, rfl⟩
      · rw [if_neg hc] at h
        exact absurd h (by simp)

theorem extractArray_spec (s : List Char) :
    ∀ t, extractArray s = some t →
      ∃ p q mid, s = p ++ t ++ q ∧ '[' ∉ p ∧ ']' ∉ q ∧ t = '[' :: mid ++ [']'] := by
  induction s with
  | nil => intro t h; simp [extractArray] at h
  | cons c rest ih =>
    intro t h
    simp only [extractArray] at h
    by_cases hc : c = '['
    · rw [if_pos hc] at h
      cases hr : takeToLastClose rest with
      | some pre =>
        rw [hr] at h
        injection h with h
        subst h
        obtain ⟨q, mid, hq, hnq, hmid⟩ := takeToLastClose_spec rest pre hr
        exact ⟨[], q, mid, by simp [hc, hq], by simp, hnq, by simp [hmid]⟩
      | none => rw [hr] at h; exact absurd h (by simp)
    · rw [if_neg hc] at h
      obtain ⟨p, q, mid, hs, hp, hq, ht⟩ := ih t h
      exact ⟨c :: p, q, mid, by simp [hs], by
        simp only [List.mem_cons, not_or]
        exact ⟨fun hx => hc hx.symm, hp⟩, hq, ht⟩

theorem extractArray_eq_none (s : List Char)
    (h : ¬ List.Sublist ['[', ']'] s) : extractArray s = none := by
  induction s with
  | nil => rfl
  | cons c rest ih =>
    simp only [extractArray]
    by_cases hc : c = '['
    · rw [if_pos hc]
      have hnc : ']' ∉ rest := by
        intro hm
        subst hc
        exact h (List.cons_sublist_cons.mpr (List.singleton_sublist.mpr hm))
      rw [(takeToLastClose_eq_none_iff rest).mpr hnc]
    · rw [if_neg hc]
      exact ih (fun hs => h (hs.cons c))

theorem pair_sublist_of_span {s : List Char} (h : HasArraySpan s) :
    List.Sublist ['[', ']'] s := by
  obtain ⟨mid, h⟩ := h
  refine List.Sublist.trans ?_ h.sublist
  exact List.cons_sublist_cons.mpr (List.sublist_append_right mid [']'])

theorem span_of_pair_sublist {s : List Char} (h : List.Sublist ['[', ']'] s) :
    HasArraySpan s := by
  induction s with
  | nil => simp at h
  | cons c rest ih =>
    cases h with
    | cons _ h' =>
      obtain ⟨mid, hinf⟩ := ih h'
      exact ⟨mid, List.infix_cons hinf⟩
    | cons₂ _ h' =>
      have hm : ']' ∈ rest := List.singleton_sublist.mp h'
      obtain ⟨a, b, hab⟩ := List.append_of_mem hm
      refine ⟨a, ⟨[], b, ?_⟩⟩
      simp [hab]

/-- A span surviving in a subsequence was present in the original text. -/
theorem span_mono {s t : List Char} (hsub : List.Sublist t s)
    (h : HasArraySpan t) : HasArraySpan s :=
  span_of_pair_sublist ((pair_sublist_of_span h).trans hsub)

/-! ## The cleaning pipeline only deletes characters -/

theorem pyStrip_sublist (s : List Char) : List.Sublist (pyStrip s) s := by
  unfold pyStrip
  have h1 : List.Sublist ((s.dropWhile isPyWs).reverse.dropWhile isPyWs)
      (s.dropWhile isPyWs).reverse := List.dropWhile_sublist _
  have h2 := h1.reverse
  simp only [List.reverse_reverse] at h2
  exact h2.trans (List.dropWhile_sublist _)

theorem fenceSubF_sublist (fuel : Nat) (b : Bool) (s : List Char) :
    List.Sublist (fenceSubF fuel b s) s := by
  induction fuel, b, s using fenceSubF.induct with
  | case1 x s => exact List.Sublist.refl s
  | case2 fuel rest2 ih =>
    simp only [fenceSubF, if_true]
    exact ih.trans (List.sublist_append_right ['`', '`', '`', 'j', 's', 'o', 'n'] rest2)
  | case3 fuel atStart rest2 hne ih =>
    simp only [Bool.not_eq_true] at hne
    subst hne
    simp only [fenceSubF, Bool.false_eq_true, if_false]
    exact List.cons_sublist_cons.mpr ih
  | case4 fuel ih =>
    simp only [fenceSubF, if_true]
    exact ih.trans (List.nil_sublist _)
  | case5 fuel atStart hne =>
    simp only [Bool.not_eq_true] at hne
    subst hne
    simp only [fenceSubF, Bool.false_eq_true, if_false]
    exact List.nil_sublist _
  | case6 fuel x tail ih =>
    simp only [fenceSubF]
    exact ih.trans (List.sublist_append_right ['`', '`', '`'] ('\n' :: tail))
  | case7 fuel rest hj hn hl ih =>
    rw [fenceSubF.eq_5 true fuel rest hj hn hl]
    simp only [if_true]
    exact ih.trans (List.sublist_append_right ['`', '`', '`'] rest)
  | case8 fuel atStart rest hj hn hl hne ih =>
    simp only [Bool.not_eq_true] at hne
    subst hne
    rw [fenceSubF.eq_5 false fuel rest hj hn hl]
    simp only [Bool.false_eq_true, if_false]
    exact List.cons_sublist_cons.mpr ih
  | case9 fuel x c rest h1 h2 h3 h4 ih =>
    rw [fenceSubF.eq_6 x fuel c rest h1 h2 h3 h4]
    exact List.cons_sublist_cons.mpr ih
  | case10 n x => exact List.Sublist.refl _

theorem fenceSub_sublist (s : List Char) : List.Sublist (fenceSub s) s :=
  fenceSubF_sublist _ _ _

theorem cleanOutput_sublist (s : List Char) : List.Sublist (cleanOutput s) s :=
  ((pyStrip_sublist _).trans (fenceSub_sublist _)).trans (pyStrip_sublist s)

/-! ## The substring test agrees with `List.IsInfix` -/

theorem listContains_iff (p s : List Char) :
    listContains p s = true ↔ List.IsInfix p s := by
  induction s with
  | nil =>
    simp only [listContains, List.infix_nil]
    rw [List.isPrefixOf_iff_prefix, List.prefix_nil]
  | cons c rest ih =>
    simp only [listContains, Bool.or_eq_true, List.isPrefixOf_iff_prefix, ih,
      List.infix_cons_iff]

/-! ## File-walk membership lemmas -/

theorem mem_filesHere {cfg : Config} : ∀ (cs : FSList) (p : List String),
    p ∈ filesHere cfg cs → ∃ fn, p = [fn] ∧ keepFile cfg fn = true
  | .nil, p, h => by simp [filesHere] at h
  | .cons (.file n) rest, p, h => by
    simp only [filesHere, List.mem_append] at h
    rcases h with h | h
    · by_cases hk : keepFile cfg n
      · rw [if_pos hk] at h
        simp only [List.mem_singleton] at h
        exact ⟨n, h, hk⟩
      · rw [if_neg hk] at h
        simp at h
    · exact mem_filesHere rest p h
  | .cons (.dir n cs) rest, p, h => by
    simp only [filesHere] at h
    exact mem_filesHere rest p h

theorem mem_walkSubdirs {cfg : Config} : ∀ (cs : FSList) (p : List String),
    p ∈ walkSubdirs cfg cs →
      ∃ ds fn, p = ds ++ [fn] ∧ (∀ d ∈ ds, keepDir cfg d = true) ∧
        keepFile cfg fn = true
  | .nil, p, h => by simp [walkSubdirs] at h
  | .cons (.file n) rest, p, h => by
    simp only [walkSubdirs] at h
    exact mem_walkSubdirs rest p h
  | .cons (.dir n cs) rest, p, h => by
    simp only [walkSubdirs, List.mem_append] at h
    rcases h with h | h
    · by_cases hk : keepDir cfg n
      · rw [if_pos hk] at h
        simp only [List.mem_map, List.mem_append] at h
        obtain ⟨q, hq, rfl⟩ := h
        rcases hq with hq | hq
        · obtain ⟨fn, rfl, hf⟩ := mem_filesHere cs q hq
          exact ⟨[n], fn, rfl, by simpa using hk, hf⟩
        · obtain ⟨ds, fn, rfl, hds, hf⟩ := mem_walkSubdirs cs q hq
          refine ⟨n :: ds, fn, rfl, ?_, hf⟩
          intro d hd
          rcases List.mem_cons.mp hd with rfl | hd
          · exact hk
          · exact hds d hd
      · rw [if_neg hk] at h
        simp at h
    · exact mem_walkSubdirs rest p h

theorem mem_find_supported_files {cfg : Config} {root : FSEntry} {p : List String}
    (h : p ∈ find_supported_files cfg root) :
    ∃ ds fn, p = ds ++ [fn] ∧ (∀ d ∈ ds, keepDir cfg d = true) ∧
      keepFile cfg fn = true := by
  cases root with
  | file n => simp [find_supported_files] at h
  | dir n cs =>
    simp only [find_supported_files, List.mem_append] at h
    rcases h with h | h
    · obtain ⟨fn, rfl, hf⟩ := mem_filesHere cs p h
      exact ⟨[], fn, rfl, by simp, hf⟩
    · exact mem_walkSubdirs cs p h

theorem keepDir_not_excluded {cfg : Config} {d : String}
    (h : keepDir cfg d = true) : d ∉ cfg.EXCLUDED_DIRS := by
  simp only [keepDir, Bool.and_eq_true, Bool.not_eq_true'] at h
  intro hm
  have : cfg.EXCLUDED_DIRS.contains d = true := by
    simpa [List.contains] using List.elem_iff.mpr hm
  rw [this] at h
  exact absurd h.2 (by simp)

theorem keepDir_not_dot {cfg : Config} {d : String}
    (h : keepDir cfg d = true) : strStartsWith d "." = false := by
  simp only [keepDir, Bool.and_eq_true, Bool.not_eq_true'] at h
  exact h.1

theorem keepFile_no_pattern {cfg : Config} {fn : String}
    (h : keepFile cfg fn = true) :
    ∀ pat ∈ cfg.EXCLUDED_PATTERNS, ¬ List.IsInfix pat.data fn.data := by
  simp only [keepFile, Bool.and_eq_true, Bool.not_eq_true'] at h
  intro pat hpat hinf
  have : cfg.EXCLUDED_PATTERNS.any (fun pat => strContains pat fn) = true :=
    List.any_eq_true.mpr ⟨pat, hpat, by
      simpa [strContains] using (listContains_iff pat.data fn.data).mpr hinf⟩
  rw [this] at h
  exact absurd h.2 (by simp)

/-! ## A decoded bracketed span is an array -/

theorem parseValue_bracket (fuel : Nat) (r rest' : List Char) (j : Json)
    (h : parseValue (fuel + 1) ('[' :: r) = some (j, rest')) :
    ∃ xs, j = Json.arr xs := by
  simp only [parseValue, Char.reduceEq, if_false, if_true, reduceIte] at h
  rw [Option.map_eq_some'] at h
  obtain ⟨⟨xs, r2⟩, hp, heq⟩ := h
  obtain ⟨h1, h2⟩ := Prod.mk.injEq .. ▸ heq
  exact ⟨xs, h1.symm⟩

theorem jsonLoads_bracket_isArr (s : List Char) (j : Json)
    (hhead : s.head? = some '[') (h : jsonLoads s = some j) :
    ∃ xs, j = Json.arr xs := by
  cases s with
  | nil => simp at hhead
  | cons c rest =>
    simp only [List.head?_cons, Option.some.injEq] at hhead
    subst hhead
    unfold jsonLoads at h
    have hs : skipWs ('[' :: rest) = '[' :: rest := by
      simp [skipWs, List.dropWhile_cons, isJsonWs]
    rw [hs] at h
    have hf : 2 * ('[' :: rest).length + 4 = (2 * rest.length + 5) + 1 := by
      simp [List.length_cons]; ring
    rw [hf] at h
    cases hp : parseValue (2 * rest.length + 5 + 1) ('[' :: rest) with
    | none => rw [hp] at h; simp at h
    | some pr =>
      obtain ⟨j2, r2⟩ := pr
      rw [hp] at h
      obtain ⟨xs, rfl⟩ := parseValue_bracket _ _ _ _ hp
      have h2 : (if skipWs r2 = [] then some (Json.arr xs) else none) = some j := h
      by_cases hr : skipWs r2 = []
      · rw [if_pos hr] at h2
        injection h2 with h2
        exact ⟨xs, h2.symm⟩
      · rw [if_neg hr] at h2
        simp at h2

/-! # The claims -/

/-- C1 (counterexample): the model output `"[1] ]"` contains the valid JSON
array `[1]` as a substring, yet the parse path returns `[]` with a decode
warning rather than the decoded records: the pattern `\[.*\]` is greedy and
spans to the last `]`, so `"[1] ]"` is handed to `json.loads`. -/
theorem claim1_counterexample :
    List.IsInfix ("[1]".data) ("[1] ]".data) ∧
    jsonLoads "[1]".data = some (Json.arr [Json.num 1]) ∧
    scanParse "[1] ]".data = ([], true) ∧
    ([] : List Json) ≠ [Json.num 1] :=
  ⟨by decide, rfl, rfl, fun h => List.noConfusion h⟩

/-- C1 (amended): for every input text where the substring matched by the
greedy bracketed search on the cleaned (fence-stripped) text decodes as a
valid JSON array, `scan_with_ai`'s parsing step returns exactly the decoded
records, unchanged, with no warning. -/
theorem claim1_parse_roundtrip (s sub : List Char) (xs : List Json)
    (h1 : extractArray (cleanOutput s) = some sub)
    (h2 : jsonLoads sub = some (Json.arr xs)) :
    scanParse s = (xs, false) := by
  simp only [scanParse, scanBody, h1, h2]
  rfl

/-- C1 (witness): the fenced model output carrying the array `[1, 2]`. -/
theorem claim1_witness :
    scanParse ("```json\n[1, 2]\n```").data = ([Json.num 1, Json.num 2], false) :=
  claim1_parse_roundtrip _ ("[1, 2]".data) _ rfl rfl

/-- C2 (counterexample): on the cleaned output `"[1] x [2]"`, the first
bracketed JSON array appearing in the text is `[1]`, but the substring the
parser selects is the whole greedy span `"[1] x [2]"`, whose decode then
fails. -/
theorem claim2_counterexample :
    extractArray (cleanOutput "[1] x [2]".data) = some ("[1] x [2]".data) ∧
    "[1] x [2]".data ≠ "[1]".data ∧
    List.IsInfix ("[1]".data) ("[1] x [2]".data) ∧
    jsonLoads "[1]".data = some (Json.arr [Json.num 1]) ∧
    scanParse "[1] x [2]".data = ([], true) :=
  ⟨rfl, by decide, by decide, rfl, rfl⟩

/-- C2 (amended): the substring selected for decoding is the greedy
bracketed span of the cleaned text: it starts at the text's first `[`
(no `[` precedes it) and extends to the text's last `]` (no `]` follows
it) — not the first bracketed array. -/
theorem claim2_greedy_span (s t : List Char)
    (h : extractArray (cleanOutput s) = some t) :
    ∃ p q mid, cleanOutput s = p ++ t ++ q ∧ '[' ∉ p ∧ ']' ∉ q ∧
      t = '[' :: mid ++ [']'] :=
  extractArray_spec (cleanOutput s) t h

/-- C2 (witness): the span decomposition at the concrete output
`"[1] x [2]"`. -/
theorem claim2_witness :
    ∃ p q mid, cleanOutput ("[1] x [2]".data) = p ++ "[1] x [2]".data ++ q ∧
      '[' ∉ p ∧ ']' ∉ q ∧ "[1] x [2]".data = '[' :: mid ++ [']'] :=
  claim2_greedy_span _ _ rfl

/-- C3: on every model-output text the parse path terminates with a findings
sequence and a warning flag: the one exception it can raise
(`json.JSONDecodeError`) is caught by its handler, so the embedded function
is total by construction. -/
theorem claim3_parser_total (s : List Char) :
    ∃ findings warned, scanParse s = (findings, warned) :=
  ⟨_, _, rfl⟩

/-- C4: an input text without any bracketed-array substring yields an empty
findings sequence (and no decode warning): the cleaning steps only delete
characters, so no bracketed span can appear, and the search fails. -/
theorem claim4_no_bracket_empty (s : List Char) (h : ¬ HasArraySpan s) :
    scanParse s = ([], false) := by
  have hpair : ¬ List.Sublist ['[', ']'] s :=
    fun hs => h (span_of_pair_sublist hs)
  have hclean : ¬ List.Sublist ['[', ']'] (cleanOutput s) :=
    fun hs => hpair (hs.trans (cleanOutput_sublist s))
  unfold scanParse scanBody
  rw [extractArray_eq_none _ hclean]

/-- C4 (witness): at the bracket-free output `"No accessibility issues."`. -/
theorem claim4_witness :
    scanParse "No accessibility issues.".data = ([], false) :=
  claim4_no_bracket_empty _
    (fun h => absurd (pair_sublist_of_span h) (by decide))

/-- C5: when the selected bracketed substring fails structured decoding, the
parse path catches the `JSONDecodeError`, prints the warning and returns an
empty findings sequence — a single attempt, no retry, and no abort of the
overall scan. -/
theorem claim5_decode_failure_warns (s sub : List Char)
    (h1 : extractArray (cleanOutput s) = some sub)
    (h2 : jsonLoads sub = none) :
    scanParse s = ([], true) := by
  simp only [scanParse, scanBody, h1, h2]

/-- C5 (witness): at the malformed output `"[,]"`. -/
theorem claim5_witness : scanParse "[,]".data = ([], true) :=
  claim5_decode_failure_warns _ ("[,]".data) rfl rfl

/-- C6: for every configuration and directory tree, each returned path has
no directory component below the scan root equal to a configured excluded
directory name, and its file name contains no configured excluded pattern
as a substring — equivalently, files under excluded directories or matching
excluded patterns are never returned, at any nesting depth. -/
theorem claim6_exclusions_respected (cfg : Config) (root : FSEntry)
    (p : List String) (h : p ∈ find_supported_files cfg root) :
    (∀ d ∈ p.dropLast, d ∉ cfg.EXCLUDED_DIRS) ∧
    ∀ pat ∈ cfg.EXCLUDED_PATTERNS,
      ¬ List.IsInfix pat.data (p.getLastD "").data := by
  obtain ⟨ds, fn, rfl, hds, hf⟩ := mem_find_supported_files h
  constructor
  · intro d hd
    rw [List.dropLast_concat] at hd
    exact keepDir_not_excluded (hds d hd)
  · intro pat hpat
    rw [List.getLastD_concat]
    exact keepFile_no_pattern hf pat hpat

/-- C6 (witness): a tree with an excluded directory nested two levels
deep. -/
theorem claim6_witness :
    ["sub", "d.html"] ∈ find_supported_files
        ⟨[".html"], ["node_modules"], [".stories.jsx"]⟩
        (FSEntry.dir "root" (FSList.ofList [
          FSEntry.file "a.html",
          FSEntry.dir "node_modules" (FSList.ofList [FSEntry.file "c.html"]),
          FSEntry.dir "sub" (FSList.ofList [FSEntry.file "d.html",
            FSEntry.dir "node_modules"
              (FSList.ofList [FSEntry.file "e.html"])])])) ∧
    (∀ d ∈ (["sub", "d.html"] : List String).dropLast,
        d ∉ (⟨[".html"], ["node_modules"],
          [".stories.jsx"]⟩ : Config).EXCLUDED_DIRS) ∧
    ∀ pat ∈ (⟨[".html"], ["node_modules"],
        [".stories.jsx"]⟩ : Config).EXCLUDED_PATTERNS,
      ¬ List.IsInfix pat.data
        ((["sub", "d.html"] : List String).getLastD "").data := by
  have hmem : ["sub", "d.html"] ∈ find_supported_files
      ⟨[".html"], ["node_modules"], [".stories.jsx"]⟩
      (FSEntry.dir "root" (FSList.ofList [
        FSEntry.file "a.html",
        FSEntry.dir "node_modules" (FSList.ofList [FSEntry.file "c.html"]),
        FSEntry.dir "sub" (FSList.ofList [FSEntry.file "d.html",
          FSEntry.dir "node_modules"
            (FSList.ofList [FSEntry.file "e.html"])])])) := by decide
  exact ⟨hmem, claim6_exclusions_respected _ _ _ hmem⟩

/-- C7: the model output consisting of the lines ```` ```json ````, `[]`,
```` ``` ```` parses to an empty findings sequence with no decode error:
fence stripping leaves `[]`, which decodes as the empty array. -/
theorem claim7_fenced_empty_array :
    scanParse ("```json\n[]\n```").data = ([], false) := rfl

/-- C8: rendering an empty findings sequence never fails and emits exactly
the positive no-issues message, whatever the output format; `main` then
`continue`s to the next file, printing nothing further for this one. -/
theorem claim8_empty_renders_no_issues (fmt : String) :
    renderFileReport fmt [] = some [[noIssuesMsg]] := rfl

/-- C9: every finding field absent from a record is rendered as empty text
(the empty join for `line_numbers`) in both table and list output modes,
with no error. -/
theorem claim9_missing_fields_default (d : Dict) (i j : Nat) :
    (dictGet d "title" = none → cellStr d "title" = "") ∧
    (dictGet d "issue_type" = none → cellStr d "issue_type" = "") ∧
    (dictGet d "severity" = none → cellStr d "severity" = "") ∧
    (dictGet d "description" = none → cellStr d "description" = "") ∧
    (dictGet d "suggestion" = none → cellStr d "suggestion" = "") ∧
    (dictGet d "line_numbers" = none →
      tableRow i d = some [toString (i + 1), cellStr d "title",
        cellStr d "issue_type", cellStr d "severity", "",
        cellStr d "description", cellStr d "suggestion"] ∧
      listEntry j d = some [
        "\n" ++ toString j ++ ". " ++ cellStr d "title" ++ " [" ++
          cellStr d "issue_type" ++ "] (Severity: " ++
          cellStr d "severity" ++ ")",
        "   Lines: ",
        "   Description: " ++ cellStr d "description",
        "   Suggestion: " ++ cellStr d "suggestion",
        String.mk (List.replicate 80 '-')]) := by
  refine ⟨fun h => ?_, fun h => ?_, fun h => ?_, fun h => ?_, fun h => ?_,
    fun h => ?_⟩
  · simp [cellStr, h]
  · simp [cellStr, h]
  · simp [cellStr, h]
  · simp [cellStr, h]
  · simp [cellStr, h]
  · constructor
    · simp [tableRow, linesCell, h]
    · simp [listEntry, linesCell, h]

/-- C9 (witness): the empty record — every field absent — at table row 0
and list index 1. -/
theorem claim9_witness :
    cellStr ([] : Dict) "title" = "" ∧
    tableRow 0 ([] : Dict) = some ["1", "", "", "", "", "", ""] ∧
    listEntry 1 ([] : Dict) = some ["\n1.  [] (Severity: )", "   Lines: ",
      "   Description: ", "   Suggestion: ",
      String.mk (List.replicate 80 '-')] :=
  ⟨(claim9_missing_fields_default [] 0 1).1 rfl,
    ((claim9_missing_fields_default [] 0 1).2.2.2.2.2 rfl).1,
    ((claim9_missing_fields_default [] 0 1).2.2.2.2.2 rfl).2⟩

/-- C10: for every configuration, no returned path has a directory
component below the scan root whose name starts with a dot, whether or not
that name appears in the excluded-directories list (`os.walk` always enters
the scan root itself, which the pruning never examines). -/
theorem claim10_dot_dirs_pruned (cfg : Config) (root : FSEntry)
    (p : List String) (h : p ∈ find_supported_files cfg root) :
    ∀ d ∈ p.dropLast, strStartsWith d "." = false := by
  obtain ⟨ds, fn, rfl, hds, hf⟩ := mem_find_supported_files h
  intro d hd
  rw [List.dropLast_concat] at hd
  exact keepDir_not_dot (hds d hd)

/-- C10 (witness): a tree containing a `.git` directory not named in the
excluded list. -/
theorem claim10_witness :
    ["keep", "a.css"] ∈ find_supported_files ⟨[".css"], ["dist"], []⟩
        (FSEntry.dir "top" (FSList.ofList [
          FSEntry.dir ".git" (FSList.ofList [FSEntry.file "b.css"]),
          FSEntry.dir "keep" (FSList.ofList [FSEntry.file "a.css"])])) ∧
    ∀ d ∈ (["keep", "a.css"] : List String).dropLast,
      strStartsWith d "." = false := by
  have hmem : ["keep", "a.css"] ∈ find_supported_files ⟨[".css"], ["dist"], []⟩
      (FSEntry.dir "top" (FSList.ofList [
        FSEntry.dir ".git" (FSList.ofList [FSEntry.file "b.css"]),
        FSEntry.dir "keep" (FSList.ofList [FSEntry.file "a.css"])])) := by decide
  exact ⟨hmem, claim10_dot_dirs_pruned _ _ _ hmem⟩

end AIChecker
